import Mathlib

/-!
Verification of the reflection core of `simd_access` (file
`include/simd_access/reflection.hpp`): structure-of-simd mirroring
(`simdized_value`), the paired structural visitor (`simd_members`),
contiguous and indexed load/store, rvalue gather (`load_rvalue`) and masked
assignment (`where` / `where_expression`).

Embedding conventions:
- A C++ aggregate shape (an arithmetic leaf, a `std::pair`, or a
  `std::vector`) is modelled by the rose tree `Agg α`; the leaf payload `α`
  selects the role: `Agg Int` is a scalar aggregate value, `Agg Nat` is an
  in-memory scalar instance (each arithmetic leaf is represented by the
  byte address of that member inside the lane-0 instance), and
  `Agg (List Int)` is a structure-of-simd value (each arithmetic leaf is
  replaced by its lane container, a list of `SimdSize` scalar values).
- Memory is a total map from byte addresses to scalar values
  (`Mem := Nat → Int`); arithmetic values are abstracted to `Int`.
- The static C++ type argument of a template (`BaseType`, element types) is
  modelled by `Ty`.
- The traversal `simd_members` threads an explicit state (modelling the
  environment captured and mutated by the C++ functor) and rebuilds the
  destination; a shape combination for which no C++ overload exists (an
  overload-resolution failure at compile time) is modelled as `none`, as is
  an out-of-bounds `s[i]` access in the `std::vector` overload.
-/

set_option maxHeartbeats 1000000

namespace simd_access

/-- Scalar memory: a total map from byte addresses to the (abstracted)
arithmetic value stored there. -/
abbrev Mem := Nat → Int

/-- Static shape of a C++ type participating in the reflection engine:
an arithmetic type, a `std::pair`, or a `std::vector`. -/
inductive Ty : Type where
  | scalar : Ty
  | pair : Ty → Ty → Ty
  | vec : Ty → Ty
deriving Repr, DecidableEq

/-- An aggregate value with leaf payload `α`: an arithmetic leaf, a
`std::pair` of two aggregates, or a `std::vector` of aggregates. -/
inductive Agg (α : Type) : Type where
  | leaf : α → Agg α
  | pair : Agg α → Agg α → Agg α
  | vec : List (Agg α) → Agg α
deriving Repr

mutual
/-- The list of leaf payloads of an aggregate, in the fixed left-to-right
traversal order (pair: first member then second; vector: ascending index). -/
def leaves {α : Type} : Agg α → List α
  | .leaf a => [a]
  | .pair x y => leaves x ++ leaves y
  | .vec l => leavesList l

/-- Concatenated leaves of a list of aggregates, ascending index order. -/
def leavesList {α : Type} : List (Agg α) → List α
  | [] => []
  | x :: xs => leaves x ++ leavesList xs
end

mutual
/-- Structural shape equality of two aggregates (the invariant required of
the two operands of `simd_members`): same constructor at every depth and
equal `std::vector` lengths at matching positions. -/
def sameShape {α β : Type} : Agg α → Agg β → Bool
  | .leaf _, .leaf _ => true
  | .pair x y, .pair z w => sameShape x z && sameShape y w
  | .vec l, .vec m => sameShapeList l m
  | _, _ => false

/-- Positional shape equality of two aggregate lists of equal length. -/
def sameShapeList {α β : Type} : List (Agg α) → List (Agg β) → Bool
  | [], [] => true
  | x :: xs, y :: ys => sameShape x y && sameShapeList xs ys
  | _, _ => false
end

mutual
/-- True if the aggregate contains no `std::vector` anywhere. -/
def vecFree {α : Type} : Agg α → Bool
  | .leaf _ => true
  | .pair x y => vecFree x && vecFree y
  | .vec _ => false

/-- True if every member of the list is `std::vector`-free. -/
def vecFreeList {α : Type} : List (Agg α) → Bool
  | [] => true
  | x :: xs => vecFree x && vecFreeList xs
end

mutual
/-- Shapes for which the default-constructed mirror type reproduces the
value's shape: no `std::vector` occurs strictly inside a `std::vector`
(the element type of a vector has a value-independent default shape). -/
def wfShape {α : Type} : Agg α → Bool
  | .leaf _ => true
  | .pair x y => wfShape x && wfShape y
  | .vec l => vecFreeList l

/-- Auxiliary list version of `wfShape` for pair members. -/
def wfShapeList {α : Type} : List (Agg α) → Bool
  | [] => true
  | x :: xs => wfShape x && wfShapeList xs
end

mutual
/-- True if the aggregate value is an instance of the static type `t`. -/
def hasTy {α : Type} : Agg α → Ty → Bool
  | .leaf _, .scalar => true
  | .pair x y, .pair a b => hasTy x a && hasTy y b
  | .vec l, .vec t => hasTyList l t
  | _, _ => false

/-- True if every member of the list is an instance of `t`. -/
def hasTyList {α : Type} : List (Agg α) → Ty → Bool
  | [], _ => true
  | x :: xs, t => hasTy x t && hasTyList xs t
end

/-- True if the static type contains no `std::vector`. -/
def tyVecFree : Ty → Bool
  | .scalar => true
  | .pair a b => tyVecFree a && tyVecFree b
  | .vec _ => false

/-- Default-constructed value of the simdized mirror type of the static
type `t` (the C++ `decltype(simdized_value<SimdSize>(std::declval<T>()))`
default-initialized): an arithmetic leaf becomes a lane container of
`SimdSize` default elements, a pair becomes the pair of defaults, and a
`std::vector` becomes the empty vector (its default constructor). The
indeterminate content of a default-initialized `stdx::fixed_size_simd` is
represented by zeroes. -/
def defaultMirror (SimdSize : Nat) : Ty → Agg (List Int)
  | .scalar => .leaf (List.replicate SimdSize 0)
  | .pair a b => .pair (defaultMirror SimdSize a) (defaultMirror SimdSize b)
  | .vec _ => .vec []

/-- Default-constructed value of the simdized mirror type of a value's
static type, computed from the value (the type fully determines the
result; only the top-level constructors of the value are inspected). -/
def defaultMirrorOfVal {α : Type} (SimdSize : Nat) : Agg α → Agg (List Int)
  | .leaf _ => .leaf (List.replicate SimdSize 0)
  | .pair x y => .pair (defaultMirrorOfVal SimdSize x) (defaultMirrorOfVal SimdSize y)
  | .vec _ => .vec []

/-- Embedding of `simdized_value<SimdSize>` (reflection.hpp lines 49-76):
an arithmetic value yields `stdx::fixed_size_simd<T, SimdSize>()` (a lane
container of `SimdSize` default elements); a `std::pair` yields the pair
of the recursively simdized members; a `std::vector v` yields
`std::vector<decltype(simdized_value<SimdSize>(declval<T>()))> result(v.size())`,
that is, `v.size()` default-constructed values of the element type's
mirror type. -/
def simdized_value {α : Type} (SimdSize : Nat) : Agg α → Agg (List Int)
  | .leaf _ => .leaf (List.replicate SimdSize 0)
  | .pair x y => .pair (simdized_value SimdSize x) (simdized_value SimdSize y)
  | .vec l => .vec (l.map (fun e => defaultMirrorOfVal SimdSize e))

mutual
/-- Embedding of the visitor `simd_members` (reflection.hpp lines 31-47,
63-70 and 78-83). The three base-case overloads (destination and source
both `stdx::simd`, or one `stdx::simd` and the other its scalar
`value_type`) all invoke the functor directly on the leaf pair; they are
modelled uniformly by the `leaf`/`leaf` case, the leaf payload types `β`
(destination) and `γ` (source) playing the role of the concrete C++ leaf
types of the instantiation. The functor is modelled as a state transformer
`f : σ → β → γ → σ × β` returning the new captured state and the new value
of the destination leaf. The `std::pair` overload recurses into the first
member pair and then into the second; the `std::vector` overload iterates
`i` ascending from `0` below `d.size()` recursing into `d[i], s[i]`
(modelled by `simd_members_list`, which pairs positionally and stops at
the end of the destination list). A combination of operands for which no
overload exists, or an out-of-range `s[i]` access, yields `none`. -/
def simd_members {σ β γ : Type} (f : σ → β → γ → σ × β) :
    σ → Agg β → Agg γ → Option (σ × Agg β)
  | st, .leaf d, .leaf s => some ((f st d s).1, .leaf (f st d s).2)
  | st, .pair d1 d2, .pair s1 s2 => do
      let r1 ← simd_members f st d1 s1
      let r2 ← simd_members f r1.1 d2 s2
      pure (r2.1, .pair r1.2 r2.2)
  | st, .vec ds, .vec ss => do
      let r ← simd_members_list f st ds ss
      pure (r.1, .vec r.2)
  | _, .leaf _, .pair _ _ => none
  | _, .leaf _, .vec _ => none
  | _, .pair _ _, .leaf _ => none
  | _, .pair _ _, .vec _ => none
  | _, .vec _, .leaf _ => none
  | _, .vec _, .pair _ _ => none

/-- Embedding of the loop body of the `std::vector` overload of
`simd_members` (reflection.hpp lines 63-70): destination element `i` is
paired with source element `i`, for `i` ascending from `0` below
`d.size()`; a source shorter than the destination makes the `s[i]` access
out of range (`none`), a source longer than the destination leaves the
excess source elements unvisited. -/
def simd_members_list {σ β γ : Type} (f : σ → β → γ → σ × β) :
    σ → List (Agg β) → List (Agg γ) → Option (σ × List (Agg β))
  | st, [], _ => some (st, [])
  | _, _ :: _, [] => none
  | st, d :: ds, s :: ss => do
      let r1 ← simd_members f st d s
      let r2 ← simd_members_list f r1.1 ds ss
      pure (r2.1, r1.2 :: r2.2)
end

/-- Reference fold of a leaf functor over an explicit list of leaf pairs:
the functor is applied exactly once per pair, first pair first, threading
the state left to right and collecting the new destination leaves. -/
def leafFold {σ β γ : Type} (f : σ → β → γ → σ × β) :
    σ → List (β × γ) → σ × List β
  | st, [] => (st, [])
  | st, p :: ps =>
      let q := f st p.1 p.2
      let r := leafFold f q.1 ps
      (r.1, q.2 :: r.2)

/-- Recording functor: appends the visited leaf pair to the log and
leaves the destination leaf unchanged. -/
def logStep {β γ : Type} : List (β × γ) → β → γ → List (β × γ) × β :=
  fun st x y => (st ++ [(x, y)], x)

/-- Call log of `simd_members`: the list of leaf pairs on which the
functor is invoked, in invocation order. -/
def visit_log {β γ : Type} (d : Agg β) (s : Agg γ) : Option (List (β × γ)) :=
  (simd_members logStep [] d s).map (fun r => r.1)

/-- Embedding of `get_index` of the index collaborator.
Modelled from the spec: the index abstraction is "a sized, indexable
sequence of per-lane integer offsets" (spec section 6); `get_index(idx, i)`
yields entry `i` of that sequence. The source file index.hpp is not part
of the sources under review. -/
def get_index (idx : List Nat) (i : Nat) : Nat := idx.getD i 0

/-- Single scalar write: memory cell `x` is set to `v`. -/
def update (m : Mem) (x : Nat) (v : Int) : Mem :=
  fun y => if y = x then v else m y

/-- Sequential application of a list of address/value writes, first write
first (a later write to the same address wins). -/
def applyWrites (ws : List (Nat × Int)) (m : Mem) : Mem :=
  ws.foldl (fun m w => update m w.1 w.2) m

/-- Leaf-level contiguous load.
Modelled from the spec: the arithmetic overload of `load` (declared in
base.hpp, which is not part of the sources under review) reads lane `i`
of the lane container from address `base + i*ElementSize` for `i` in
`[0, SimdSize)` (spec section 4.3, contiguous load contract). -/
def leaf_load_linear (ElementSize SimdSize : Nat) (mem : Mem) (a : Nat) : List Int :=
  (List.range SimdSize).map (fun i => mem (a + i * ElementSize))

/-- Leaf-level contiguous store.
Modelled from the spec: the arithmetic overload of `store` (declared in
base.hpp, which is not part of the sources under review) writes lane `i`
of the lane container `v` to address `base + i*ElementSize` for `i` in
`[0, SimdSize)` (spec section 4.3, contiguous store contract). -/
def leaf_store_linear (ElementSize SimdSize : Nat) (a : Nat) (v : List Int) (m : Mem) : Mem :=
  applyWrites ((List.range SimdSize).map (fun i => (a + i * ElementSize, v.getD i 0))) m

/-- Leaf-level indexed (gather) load.
Modelled from the spec: the arithmetic overload of `load` for an
`indexed_location` reads lane `i` from `base + indices[i]*ElementSize`
(spec section 4.3, indexed/gather contract); the lane count is the size
of the index list. -/
def leaf_load_indexed (ElementSize : Nat) (mem : Mem) (a : Nat) (idx : List Nat) : List Int :=
  (List.range idx.length).map (fun i => mem (a + get_index idx i * ElementSize))

/-- Leaf-level indexed (scatter) store.
Modelled from the spec: the arithmetic overload of `store` for an
`indexed_location` writes lane `i` of `v` to `base + indices[i]*ElementSize`
(spec section 4.3, indexed/gather contract). -/
def leaf_store_indexed (ElementSize : Nat) (a : Nat) (idx : List Nat) (v : List Int) (m : Mem) : Mem :=
  applyWrites ((List.range idx.length).map (fun i => (a + get_index idx i * ElementSize, v.getD i 0))) m

/-- Embedding of `load` for a `linear_location` (reflection.hpp lines
96-106). The in-memory scalar instance `*location.base_` is represented by
`base : Agg Nat`, each arithmetic leaf holding the byte address of that
member inside the lane-0 instance (taking `&src` in the functor yields
exactly that address). The result is `simdized_value<SimdSize>(*base)`
whose leaves are then overwritten by
`dest = load<ElementSize>(linear_location(&src))`, a leaf-level contiguous
load at the member's own address with the unchanged `ElementSize` stride. -/
def load_linear (ElementSize SimdSize : Nat) (mem : Mem) (base : Agg Nat) :
    Option (Agg (List Int)) :=
  (simd_members
      (fun (u : Unit) (_d : List Int) (src : Nat) =>
        (u, leaf_load_linear ElementSize SimdSize mem src))
      () (simdized_value SimdSize base) base).map
    (fun r => r.2)

/-- Embedding of `store` for a `linear_location` (reflection.hpp lines
167-177). The visitor pairs the in-memory destination instance `*base_`
(leaf payload: member address) with the source structure-of-simd value and
performs a leaf-level contiguous store per leaf at the member's own
address with the unchanged `ElementSize` stride; the returned memory is
the result of all leaf stores in traversal order. -/
def store_linear (ElementSize SimdSize : Nat) (base : Agg Nat) (source : Agg (List Int))
    (mem : Mem) : Option Mem :=
  (simd_members
      (fun (m : Mem) (dest : Nat) (src : List Int) =>
        (leaf_store_linear ElementSize SimdSize dest src m, dest))
      mem base source).map
    (fun r => r.1)

/-- Embedding of `load` for an `indexed_location` (reflection.hpp lines
190-201). Identical recursive structure to the contiguous load, but the
child location handed to each leaf carries the parent's index list
`location.indices_` unchanged, and the leaf-level load reads lane `i` from
`base + indices[i]*ElementSize`. -/
def load_indexed (ElementSize SimdSize : Nat) (mem : Mem) (idx : List Nat) (base : Agg Nat) :
    Option (Agg (List Int)) :=
  (simd_members
      (fun (u : Unit) (_d : List Int) (src : Nat) =>
        (u, leaf_load_indexed ElementSize mem src idx))
      () (simdized_value SimdSize base) base).map
    (fun r => r.2)

/-- Embedding of `store` for an `indexed_location` (reflection.hpp lines
215-224). The child location handed to each leaf carries the parent's
index list unchanged; each leaf performs an indexed scatter store at the
member's own address. -/
def store_indexed (ElementSize SimdSize : Nat) (idx : List Nat) (base : Agg Nat)
    (source : Agg (List Int)) (mem : Mem) : Option Mem :=
  (simd_members
      (fun (m : Mem) (dest : Nat) (src : List Int) =>
        (leaf_store_indexed ElementSize dest idx src m, dest))
      mem base source).map
    (fun r => r.1)

/-- Embedding of `load_rvalue` with a `subobject` functor (reflection.hpp
lines 118-131). `BaseType` (the static type of the subobject, modelled by
`ty`) determines the default-initialized result
`decltype(simdized_value<idx.size()>(declval<BaseType>())) result;`; then
for each lane `i` ascending in `[0, idx.size())` the visitor pairs the
current result with `subobject(base[get_index(idx, i)])` and executes
`dest[i] = src` on each leaf pair, writing lane `i` of the destination
lane container. -/
def load_rvalue_subobject (ty : Ty) (base : Nat → Agg Int) (idx : List Nat)
    (subobject : Agg Int → Agg Int) : Option (Agg (List Int)) :=
  (List.range idx.length).foldlM
    (fun acc i =>
      (simd_members
          (fun (u : Unit) (d : List Int) (s : Int) => (u, d.set i s))
          () acc (subobject (base (get_index idx i)))).map
        (fun r => r.2))
    (defaultMirror idx.length ty)

/-- Embedding of `load_rvalue` without a subobject functor (reflection.hpp
lines 141-154): as `load_rvalue_subobject`, with the scalar instance of
lane `i` taken directly as `base[get_index(idx, i)]`. -/
def load_rvalue (ty : Ty) (base : Nat → Agg Int) (idx : List Nat) :
    Option (Agg (List Int)) :=
  (List.range idx.length).foldlM
    (fun acc i =>
      (simd_members
          (fun (u : Unit) (d : List Int) (s : Int) => (u, d.set i s))
          () acc (base (get_index idx i))).map
        (fun r => r.2))
    (defaultMirror idx.length ty)

/-- Leaf-level masked lane-selective assignment.
Modelled from the spec: `stdx::where(mask, d) = s` of the lane-primitive
collaborator (spec sections 4.4 and 6) sets lane `i` of `d` to lane `i`
of `s` where `mask[i]` is true and leaves lane `i` of `d` unchanged where
`mask[i]` is false. -/
def leaf_masked_assign (mask : List Bool) (d s : List Int) : List Int :=
  (List.range d.length).map
    (fun i => if mask.getD i false then s.getD i 0 else d.getD i 0)

/-- Embedding of `where_expression` (reflection.hpp lines 245-266): the
member `M mask_` is a value (copy-initialized from the mask argument at
construction); the member `T& destination_` is a reference to the caller's
destination aggregate, modelled by the value that variable denotes (the
wrapper performs no write to it before its single deferred assignment). -/
structure where_expression where
  mask_ : List Bool
  destination_ : Agg (List Int)

/-- Embedding of `where(mask, dest)` (reflection.hpp lines 233-238):
returns `where_expression(mask, dest)`, performing no write to `dest`. -/
def simd_where (mask : List Bool) (dest : Agg (List Int)) : where_expression :=
  ⟨mask, dest⟩

/-- Embedding of `where_expression::operator=` (reflection.hpp lines
256-265): the visitor pairs the destination with the source and executes
`where(mask_, d) = s` on each leaf pair, the leaf-level masked
lane-selective assignment with the stored mask. -/
def where_expression.assign (w : where_expression) (source : Agg (List Int)) :
    Option (Agg (List Int)) :=
  (simd_members
      (fun (u : Unit) (d : List Int) (s : List Int) =>
        (u, leaf_masked_assign w.mask_ d s))
      () w.destination_ source).map
    (fun r => r.2)

/-- Scenario for the deferred masked assignment: the wrapper is built from
the caller's mask object holding `mask0` and the destination variable
holding `dest`; the caller then overwrites its mask object with `mask1`;
finally the deferred assignment from `source` executes. Returned are the
value of the destination variable right after wrapper construction and
the result of the deferred assignment. -/
def where_deferred_trace (mask0 mask1 : List Bool) (dest source : Agg (List Int)) :
    Agg (List Int) × Option (Agg (List Int)) :=
  let w := simd_where mask0 dest
  let callerMask := mask1
  let destAfterConstruction := w.destination_
  (destAfterConstruction,
    where_expression.assign ⟨w.mask_, destAfterConstruction⟩ source)

/-- True if the aggregate is a bare arithmetic leaf. -/
def isArithmetic {α : Type} : Agg α → Bool
  | .leaf _ => true
  | _ => false

/-- The scalar shapes named by the round-trip property: a single
arithmetic field, a pair of two arithmetic fields, or a sequence of
arithmetic fields of fixed runtime length. -/
def supported {α : Type} : Agg α → Bool
  | .leaf _ => true
  | .pair x y => isArithmetic x && isArithmetic y
  | .vec l => l.all isArithmetic

/-- Byte addresses written when storing `SimdSize` consecutive instances
whose lane-0 member addresses are `as`, with stride `ElementSize`. -/
def writeAddrs (ElementSize SimdSize : Nat) (as : List Nat) : List Nat :=
  as.flatMap (fun a => (List.range SimdSize).map (fun i => a + i * ElementSize))


mutual
/-- Two aggregates of equal shape have equally many leaves. -/
theorem sameShape_length {α β : Type} :
    ∀ (d : Agg α) (s : Agg β), sameShape d s = true →
      (leaves d).length = (leaves s).length
  | .leaf _, .leaf _, _ => rfl
  | .pair x y, .pair z w, h => by
      simp only [sameShape, Bool.and_eq_true] at h
      simp [leaves, sameShape_length x z h.1, sameShape_length y w h.2]
  | .vec l, .vec m, h => by
      simp only [sameShape] at h
      simpa [leaves] using sameShapeList_length l m h
  | .leaf _, .pair _ _, h => by simp [sameShape] at h
  | .leaf _, .vec _, h => by simp [sameShape] at h
  | .pair _ _, .leaf _, h => by simp [sameShape] at h
  | .pair _ _, .vec _, h => by simp [sameShape] at h
  | .vec _, .leaf _, h => by simp [sameShape] at h
  | .vec _, .pair _ _, h => by simp [sameShape] at h

/-- List version of `sameShape_length`. -/
theorem sameShapeList_length {α β : Type} :
    ∀ (l : List (Agg α)) (m : List (Agg β)), sameShapeList l m = true →
      (leavesList l).length = (leavesList m).length
  | [], [], _ => rfl
  | x :: xs, y :: ys, h => by
      simp only [sameShapeList, Bool.and_eq_true] at h
      simp [leavesList, sameShape_length x y h.1, sameShapeList_length xs ys h.2]
  | [], _ :: _, h => by simp [sameShapeList] at h
  | _ :: _, [], h => by simp [sameShapeList] at h
end

mutual
/-- Shape equality is symmetric. -/
theorem sameShape_symm {α β : Type} :
    ∀ (d : Agg α) (s : Agg β), sameShape d s = true → sameShape s d = true
  | .leaf _, .leaf _, _ => rfl
  | .pair x y, .pair z w, h => by
      simp only [sameShape, Bool.and_eq_true] at h ⊢
      exact ⟨sameShape_symm x z h.1, sameShape_symm y w h.2⟩
  | .vec l, .vec m, h => by
      simp only [sameShape] at h ⊢
      exact sameShapeList_symm l m h
  | .leaf _, .pair _ _, h => by simp [sameShape] at h
  | .leaf _, .vec _, h => by simp [sameShape] at h
  | .pair _ _, .leaf _, h => by simp [sameShape] at h
  | .pair _ _, .vec _, h => by simp [sameShape] at h
  | .vec _, .leaf _, h => by simp [sameShape] at h
  | .vec _, .pair _ _, h => by simp [sameShape] at h

/-- List version of `sameShape_symm`. -/
theorem sameShapeList_symm {α β : Type} :
    ∀ (l : List (Agg α)) (m : List (Agg β)), sameShapeList l m = true →
      sameShapeList m l = true
  | [], [], _ => rfl
  | x :: xs, y :: ys, h => by
      simp only [sameShapeList, Bool.and_eq_true] at h ⊢
      exact ⟨sameShape_symm x y h.1, sameShapeList_symm xs ys h.2⟩
  | [], _ :: _, h => by simp [sameShapeList] at h
  | _ :: _, [], h => by simp [sameShapeList] at h
end

mutual
/-- Shape equality is transitive. -/
theorem sameShape_trans {α β γ : Type} :
    ∀ (a : Agg α) (b : Agg β) (c : Agg γ), sameShape a b = true →
      sameShape b c = true → sameShape a c = true
  | .leaf _, .leaf _, .leaf _, _, _ => rfl
  | .pair x y, .pair z w, .pair u v, h1, h2 => by
      simp only [sameShape, Bool.and_eq_true] at h1 h2 ⊢
      exact ⟨sameShape_trans x z u h1.1 h2.1, sameShape_trans y w v h1.2 h2.2⟩
  | .vec l, .vec m, .vec n, h1, h2 => by
      simp only [sameShape] at h1 h2 ⊢
      exact sameShapeList_trans l m n h1 h2
  | .leaf _, .pair _ _, _, h1, _ => by simp [sameShape] at h1
  | .leaf _, .vec _, _, h1, _ => by simp [sameShape] at h1
  | .pair _ _, .leaf _, _, h1, _ => by simp [sameShape] at h1
  | .pair _ _, .vec _, _, h1, _ => by simp [sameShape] at h1
  | .vec _, .leaf _, _, h1, _ => by simp [sameShape] at h1
  | .vec _, .pair _ _, _, h1, _ => by simp [sameShape] at h1
  | .leaf _, .leaf _, .pair _ _, _, h2 => by simp [sameShape] at h2
  | .leaf _, .leaf _, .vec _, _, h2 => by simp [sameShape] at h2
  | .pair _ _, .pair _ _, .leaf _, _, h2 => by simp [sameShape] at h2
  | .pair _ _, .pair _ _, .vec _, _, h2 => by simp [sameShape] at h2
  | .vec _, .vec _, .leaf _, _, h2 => by simp [sameShape] at h2
  | .vec _, .vec _, .pair _ _, _, h2 => by simp [sameShape] at h2

/-- List version of `sameShape_trans`. -/
theorem sameShapeList_trans {α β γ : Type} :
    ∀ (l : List (Agg α)) (m : List (Agg β)) (n : List (Agg γ)),
      sameShapeList l m = true → sameShapeList m n = true →
      sameShapeList l n = true
  | [], [], [], _, _ => rfl
  | x :: xs, y :: ys, z :: zs, h1, h2 => by
      simp only [sameShapeList, Bool.and_eq_true] at h1 h2 ⊢
      exact ⟨sameShape_trans x y z h1.1 h2.1, sameShapeList_trans xs ys zs h1.2 h2.2⟩
  | [], _ :: _, _, h1, _ => by simp [sameShapeList] at h1
  | _ :: _, [], _, h1, _ => by simp [sameShapeList] at h1
  | [], [], _ :: _, _, h2 => by simp [sameShapeList] at h2
  | _ :: _, _ :: _, [], _, h2 => by simp [sameShapeList] at h2
end

/-- The default mirror of a vector-free value has the shape of the value. -/
theorem defaultMirrorOfVal_shape {α : Type} (N : Nat) :
    ∀ (e : Agg α), vecFree e = true →
      sameShape (defaultMirrorOfVal N e) e = true
  | .leaf _, _ => rfl
  | .pair x y, h => by
      simp only [vecFree, Bool.and_eq_true] at h
      simp only [defaultMirrorOfVal, sameShape, Bool.and_eq_true]
      exact ⟨defaultMirrorOfVal_shape N x h.1, defaultMirrorOfVal_shape N y h.2⟩
  | .vec _, h => by simp [vecFree] at h

/-- The simdized mirror of a well-formed value has the shape of the value
(reflection.hpp lines 49-76: the mirror of a pair is the pair of mirrors,
the mirror of a vector has the vector's runtime length). -/
theorem simdized_value_shape {α : Type} (N : Nat) :
    ∀ (v : Agg α), wfShape v = true →
      sameShape (simdized_value N v) v = true
  | .leaf _, _ => rfl
  | .pair x y, h => by
      simp only [wfShape, Bool.and_eq_true] at h
      simp only [simdized_value, sameShape, Bool.and_eq_true]
      exact ⟨simdized_value_shape N x h.1, simdized_value_shape N y h.2⟩
  | .vec l, h => by
      simp only [wfShape] at h
      simp only [simdized_value, sameShape]
      induction l with
      | nil => rfl
      | cons e es ih =>
          simp only [vecFreeList, Bool.and_eq_true] at h
          simp only [List.map_cons, sameShapeList, Bool.and_eq_true]
          exact ⟨defaultMirrorOfVal_shape N e h.1, ih h.2⟩

/-- Folding over a concatenation of leaf-pair lists folds the first list
first, then the second from the resulting state. -/
theorem leafFold_append {σ β γ : Type} (f : σ → β → γ → σ × β) :
    ∀ (ps qs : List (β × γ)) (st : σ),
      leafFold f st (ps ++ qs)
        = ((leafFold f (leafFold f st ps).1 qs).1,
           (leafFold f st ps).2 ++ (leafFold f (leafFold f st ps).1 qs).2)
  | [], qs, st => by simp [leafFold]
  | p :: ps, qs, st => by simp [leafFold, leafFold_append f ps qs]

mutual
/-- Backbone characterization of the visitor: on operands of equal shape,
`simd_members` succeeds and is exactly the fold of the functor over the
list of corresponding leaf pairs, first pair first — the functor is
invoked exactly once per corresponding leaf pair, no pair twice, none
skipped. -/
theorem simd_members_eq_leafFold {σ β γ : Type} (f : σ → β → γ → σ × β) :
    ∀ (st : σ) (d : Agg β) (s : Agg γ), sameShape d s = true →
      (simd_members f st d s).map (fun r => (r.1, leaves r.2))
        = some (leafFold f st ((leaves d).zip (leaves s)))
  | st, .leaf d, .leaf s, _ => by
      simp [simd_members, leaves, leafFold, List.zip]
  | st, .pair d1 d2, .pair s1 s2, h => by
      simp only [sameShape, Bool.and_eq_true] at h
      have h1 := simd_members_eq_leafFold f st d1 s1 h.1
      rcases hr1 : simd_members f st d1 s1 with _ | r1
      · rw [hr1] at h1; simp at h1
      · rw [hr1, Option.map_some'] at h1
        have h2 := simd_members_eq_leafFold f r1.1 d2 s2 h.2
        rcases hr2 : simd_members f r1.1 d2 s2 with _ | r2
        · rw [hr2] at h2; simp at h2
        · rw [hr2, Option.map_some'] at h2
          have hlen := sameShape_length d1 s1 h.1
          have e1 := congrArg Prod.fst (Option.some.inj h1)
          have e1b := congrArg Prod.snd (Option.some.inj h1)
          have e2 := congrArg Prod.fst (Option.some.inj h2)
          have e2b := congrArg Prod.snd (Option.some.inj h2)
          simp only at e1 e1b e2 e2b
          simp only [simd_members, hr1, Option.bind_eq_bind, Option.some_bind,
            hr2, Option.pure_def, Option.map_some', leaves,
            List.zip_append hlen, leafFold_append]
          rw [e1] at e2 e2b
          rw [e2, ← e1b, ← e2b]
  | st, .vec ds, .vec ss, h => by
      simp only [sameShape] at h
      have hl := simd_members_list_eq_leafFold f st ds ss h
      rcases hr : simd_members_list f st ds ss with _ | r
      · rw [hr] at hl; simp at hl
      · rw [hr, Option.map_some'] at hl
        simp only [simd_members, hr, Option.bind_eq_bind, Option.some_bind,
          Option.pure_def, Option.map_some', leaves]
        exact hl
  | _, .leaf _, .pair _ _, h => by simp [sameShape] at h
  | _, .leaf _, .vec _, h => by simp [sameShape] at h
  | _, .pair _ _, .leaf _, h => by simp [sameShape] at h
  | _, .pair _ _, .vec _, h => by simp [sameShape] at h
  | _, .vec _, .leaf _, h => by simp [sameShape] at h
  | _, .vec _, .pair _ _, h => by simp [sameShape] at h

/-- List version of `simd_members_eq_leafFold`. -/
theorem simd_members_list_eq_leafFold {σ β γ : Type} (f : σ → β → γ → σ × β) :
    ∀ (st : σ) (ds : List (Agg β)) (ss : List (Agg γ)),
      sameShapeList ds ss = true →
      (simd_members_list f st ds ss).map (fun r => (r.1, leavesList r.2))
        = some (leafFold f st ((leavesList ds).zip (leavesList ss)))
  | st, [], [], _ => by simp [simd_members_list, leavesList, leafFold]
  | st, d :: ds, s :: ss, h => by
      simp only [sameShapeList, Bool.and_eq_true] at h
      have h1 := simd_members_eq_leafFold f st d s h.1
      rcases hr1 : simd_members f st d s with _ | r1
      · rw [hr1] at h1; simp at h1
      · rw [hr1, Option.map_some'] at h1
        have h2 := simd_members_list_eq_leafFold f r1.1 ds ss h.2
        rcases hr2 : simd_members_list f r1.1 ds ss with _ | r2
        · rw [hr2] at h2; simp at h2
        · rw [hr2, Option.map_some'] at h2
          have hlen := sameShape_length d s h.1
          have e1 := congrArg Prod.fst (Option.some.inj h1)
          have e1b := congrArg Prod.snd (Option.some.inj h1)
          have e2 := congrArg Prod.fst (Option.some.inj h2)
          have e2b := congrArg Prod.snd (Option.some.inj h2)
          simp only at e1 e1b e2 e2b
          simp only [simd_members_list, hr1, Option.bind_eq_bind, Option.some_bind,
            hr2, Option.pure_def, Option.map_some', leavesList, leaves,
            List.zip_append hlen, leafFold_append]
          rw [e1] at e2 e2b
          rw [e2, ← e1b, ← e2b]
  | _, [], _ :: _, h => by simp [sameShapeList] at h
  | _, _ :: _, [], h => by simp [sameShapeList] at h
end

mutual
/-- The visitor rebuilds the destination with its shape unchanged. -/
theorem simd_members_shape {σ β γ : Type} (f : σ → β → γ → σ × β) :
    ∀ (st : σ) (d : Agg β) (s : Agg γ) (r : σ × Agg β),
      simd_members f st d s = some r → sameShape d r.2 = true
  | st, .leaf d, .leaf s, r, h => by
      simp only [simd_members] at h
      rw [← Option.some.inj h]
      rfl
  | st, .pair d1 d2, .pair s1 s2, r, h => by
      simp only [simd_members, Option.bind_eq_bind] at h
      rcases hr1 : simd_members f st d1 s1 with _ | r1 <;> rw [hr1] at h
      · simp at h
      · rcases hr2 : simd_members f r1.1 d2 s2 with _ | r2 <;> rw [Option.some_bind] at h <;>
          rw [hr2] at h
        · simp at h
        · simp only [Option.some_bind, Option.pure_def] at h
          rw [← Option.some.inj h]
          simp only [sameShape, Bool.and_eq_true]
          exact ⟨simd_members_shape f st d1 s1 r1 hr1,
            simd_members_shape f r1.1 d2 s2 r2 hr2⟩
  | st, .vec ds, .vec ss, r, h => by
      simp only [simd_members, Option.bind_eq_bind] at h
      rcases hr : simd_members_list f st ds ss with _ | rl <;> rw [hr] at h
      · simp at h
      · simp only [Option.some_bind, Option.pure_def] at h
        rw [← Option.some.inj h]
        simp only [sameShape]
        exact simd_members_list_shape f st ds ss rl hr
  | _, .leaf _, .pair _ _, _, h => by simp [simd_members] at h
  | _, .leaf _, .vec _, _, h => by simp [simd_members] at h
  | _, .pair _ _, .leaf _, _, h => by simp [simd_members] at h
  | _, .pair _ _, .vec _, _, h => by simp [simd_members] at h
  | _, .vec _, .leaf _, _, h => by simp [simd_members] at h
  | _, .vec _, .pair _ _, _, h => by simp [simd_members] at h

/-- List version of `simd_members_shape`. -/
theorem simd_members_list_shape {σ β γ : Type} (f : σ → β → γ → σ × β) :
    ∀ (st : σ) (ds : List (Agg β)) (ss : List (Agg γ)) (r : σ × List (Agg β)),
      simd_members_list f st ds ss = some r → sameShapeList ds r.2 = true
  | st, [], ss, r, h => by
      simp only [simd_members_list] at h
      rw [← Option.some.inj h]
      rfl
  | st, d :: ds, [], r, h => by simp [simd_members_list] at h
  | st, d :: ds, s :: ss, r, h => by
      simp only [simd_members_list, Option.bind_eq_bind] at h
      rcases hr1 : simd_members f st d s with _ | r1 <;> rw [hr1] at h
      · simp at h
      · rcases hr2 : simd_members_list f r1.1 ds ss with _ | r2 <;>
          rw [Option.some_bind] at h <;> rw [hr2] at h
        · simp at h
        · simp only [Option.some_bind, Option.pure_def] at h
          rw [← Option.some.inj h]
          simp only [sameShapeList, Bool.and_eq_true]
          exact ⟨simd_members_shape f st d s r1 hr1,
            simd_members_list_shape f r1.1 ds ss r2 hr2⟩
end

/-- A functor that does not touch the threaded state folds to the map of
its leaf action over the pair list. -/
theorem leafFold_unit {β γ : Type} (g : β → γ → β) :
    ∀ (ps : List (β × γ)) (u : Unit),
      leafFold (fun (u : Unit) d s => (u, g d s)) u ps
        = (u, ps.map (fun p => g p.1 p.2))
  | [], _ => rfl
  | p :: ps, u => by simp [leafFold, leafFold_unit g ps]

/-- A functor that only folds the state and keeps every destination leaf
unchanged folds to the left fold of its state action. -/
theorem leafFold_store {σ β γ : Type} (h : σ → β → γ → σ) :
    ∀ (ps : List (β × γ)) (st : σ),
      leafFold (fun m a v => (h m a v, a)) st ps
        = (ps.foldl (fun m p => h m p.1 p.2) st, ps.map (fun p => p.1))
  | [], _ => rfl
  | p :: ps, st => by simp [leafFold, leafFold_store h ps]

/-- Unfolding of one write step. -/
theorem applyWrites_cons (w : Nat × Int) (ws : List (Nat × Int)) (m : Mem) :
    applyWrites (w :: ws) m = applyWrites ws (update m w.1 w.2) := rfl

/-- Reading an address that no write in the list targets yields the old
memory content. -/
theorem applyWrites_not_mem :
    ∀ (ws : List (Nat × Int)) (m : Mem) (x : Nat),
      x ∉ ws.map Prod.fst → applyWrites ws m x = m x
  | [], _, _, _ => rfl
  | w :: ws, m, x, h => by
      simp only [List.map_cons, List.mem_cons, not_or] at h
      rw [applyWrites_cons, applyWrites_not_mem ws _ x h.2]
      simp [update, h.1]

/-- Reading an address written exactly once (the write addresses are
pairwise distinct) yields the written value. -/
theorem applyWrites_nodup_mem :
    ∀ (ws : List (Nat × Int)) (m : Mem) (x : Nat) (v : Int),
      (ws.map Prod.fst).Nodup → (x, v) ∈ ws → applyWrites ws m x = v
  | [], _, _, _, _, hm => by simp at hm
  | w :: ws, m, x, v, hnd, hm => by
      simp only [List.map_cons, List.nodup_cons] at hnd
      rcases List.mem_cons.mp hm with h | h
      · have hx : x = w.1 := by rw [← h]
        have : x ∉ ws.map Prod.fst := by rw [hx]; exact hnd.1
        rw [applyWrites_cons, applyWrites_not_mem ws _ x this]
        have hv : v = w.2 := by rw [← h]
        simp [update, hx, hv]
      · rw [applyWrites_cons]
        exact applyWrites_nodup_mem ws _ x v hnd.2 h

/-- Folding per-leaf write bursts is the application of the concatenated
write list. -/
theorem foldl_applyWrites_flatMap {A : Type} (chunk : A → List (Nat × Int)) :
    ∀ (ps : List A) (m : Mem),
      ps.foldl (fun m p => applyWrites (chunk p) m) m
        = applyWrites (ps.flatMap chunk) m
  | [], _ => rfl
  | p :: ps, m => by
      simp only [List.foldl_cons, List.flatMap_cons, applyWrites,
        List.foldl_append]
      exact foldl_applyWrites_flatMap chunk ps _

/-- A functor that computes the new destination leaf from the source leaf
alone and does not touch the state folds to the map of its action over the
source leaves of the pair list. -/
theorem leafFold_load {β γ : Type} (g : γ → β) :
    ∀ (ps : List (β × γ)) (u : Unit),
      leafFold (fun (u : Unit) (_d : β) (s : γ) => (u, g s)) u ps
        = (u, ps.map (fun p => g p.2))
  | [], _ => rfl
  | p :: ps, u => by simp [leafFold, leafFold_load g ps]

/-- Characterization of the contiguous composite load: it succeeds on any
well-formed in-memory instance and produces one leaf-level contiguous load
per leaf, at the leaf's own member address, with the unchanged stride. -/
theorem load_linear_leaves (es N : Nat) (mem : Mem) (b : Agg Nat)
    (h : wfShape b = true) :
    (load_linear es N mem b).map leaves
      = some ((leaves b).map (fun a => leaf_load_linear es N mem a)) := by
  have hsh := simdized_value_shape N b h
  have hmain := simd_members_eq_leafFold
    (fun (u : Unit) (_d : List Int) (src : Nat) => (u, leaf_load_linear es N mem src))
    () (simdized_value N b) b hsh
  rcases Option.map_eq_some'.mp hmain with ⟨r, hr, heq⟩
  have e2 := congrArg Prod.snd heq
  simp only at e2
  rw [leafFold_load (fun src => leaf_load_linear es N mem src)] at e2
  simp only at e2
  have hlen := sameShape_length (simdized_value N b) b hsh
  have hsnd : ((leaves (simdized_value N b)).zip (leaves b)).map Prod.snd
      = leaves b := List.map_snd_zip _ _ (le_of_eq hlen.symm)
  have hcomp : ((leaves (simdized_value N b)).zip (leaves b)).map
        (fun p => leaf_load_linear es N mem p.2)
      = (((leaves (simdized_value N b)).zip (leaves b)).map Prod.snd).map
          (fun a => leaf_load_linear es N mem a) := by
    rw [List.map_map]
    rfl
  rw [hcomp, hsnd] at e2
  simp only [load_linear, Option.map_map, hr, Option.map_some']
  simp [Function.comp, e2]

/-- Characterization of the indexed (gather) composite load: it succeeds
on any well-formed in-memory instance and produces one leaf-level gather
per leaf, at the leaf's own member address, with the parent's index list
unchanged. -/
theorem load_indexed_leaves (es N : Nat) (mem : Mem) (idx : List Nat) (b : Agg Nat)
    (h : wfShape b = true) :
    (load_indexed es N mem idx b).map leaves
      = some ((leaves b).map (fun a => leaf_load_indexed es mem a idx)) := by
  have hsh := simdized_value_shape N b h
  have hmain := simd_members_eq_leafFold
    (fun (u : Unit) (_d : List Int) (src : Nat) => (u, leaf_load_indexed es mem src idx))
    () (simdized_value N b) b hsh
  rcases Option.map_eq_some'.mp hmain with ⟨r, hr, heq⟩
  have e2 := congrArg Prod.snd heq
  simp only at e2
  rw [leafFold_load (fun src => leaf_load_indexed es mem src idx)] at e2
  simp only at e2
  have hlen := sameShape_length (simdized_value N b) b hsh
  have hsnd : ((leaves (simdized_value N b)).zip (leaves b)).map Prod.snd
      = leaves b := List.map_snd_zip _ _ (le_of_eq hlen.symm)
  have hcomp : ((leaves (simdized_value N b)).zip (leaves b)).map
        (fun p => leaf_load_indexed es mem p.2 idx)
      = (((leaves (simdized_value N b)).zip (leaves b)).map Prod.snd).map
          (fun a => leaf_load_indexed es mem a idx) := by
    rw [List.map_map]
    rfl
  rw [hcomp, hsnd] at e2
  simp only [load_indexed, Option.map_map, hr, Option.map_some']
  simp [Function.comp, e2]

/-- Characterization of the contiguous composite store: on a source of
matching shape it succeeds and applies one leaf-level contiguous store per
leaf pair, in traversal order, each at the leaf's own member address with
the unchanged stride. -/
theorem store_linear_eq (es N : Nat) (b : Agg Nat) (v : Agg (List Int)) (mem : Mem)
    (h : sameShape b v = true) :
    store_linear es N b v mem
      = some (applyWrites
          (((leaves b).zip (leaves v)).flatMap
            (fun p => (List.range N).map
              (fun i => (p.1 + i * es, p.2.getD i 0))))
          mem) := by
  have hmain := simd_members_eq_leafFold
    (fun (m : Mem) (dest : Nat) (src : List Int) =>
      (leaf_store_linear es N dest src m, dest))
    mem b v h
  rcases Option.map_eq_some'.mp hmain with ⟨r, hr, heq⟩
  have e1 := congrArg Prod.fst heq
  simp only at e1
  rw [leafFold_store (fun m a v => leaf_store_linear es N a v m)] at e1
  simp only [leaf_store_linear] at e1
  rw [foldl_applyWrites_flatMap
    (fun p : Nat × List Int => (List.range N).map (fun i => (p.1 + i * es, p.2.getD i 0)))] at e1
  simp only [store_linear, hr, Option.map_some']
  rw [e1]

/-- Characterization of the indexed (scatter) composite store: on a source
of matching shape it succeeds and applies one leaf-level scatter per leaf
pair, in traversal order, each at the leaf's own member address with the
parent's index list unchanged. -/
theorem store_indexed_eq (es N : Nat) (idx : List Nat) (b : Agg Nat)
    (v : Agg (List Int)) (mem : Mem) (h : sameShape b v = true) :
    store_indexed es N idx b v mem
      = some (applyWrites
          (((leaves b).zip (leaves v)).flatMap
            (fun p => (List.range idx.length).map
              (fun i => (p.1 + get_index idx i * es, p.2.getD i 0))))
          mem) := by
  have hmain := simd_members_eq_leafFold
    (fun (m : Mem) (dest : Nat) (src : List Int) =>
      (leaf_store_indexed es dest idx src m, dest))
    mem b v h
  rcases Option.map_eq_some'.mp hmain with ⟨r, hr, heq⟩
  have e1 := congrArg Prod.fst heq
  simp only at e1
  rw [leafFold_store (fun m a v => leaf_store_indexed es a idx v m)] at e1
  simp only [leaf_store_indexed] at e1
  rw [foldl_applyWrites_flatMap
    (fun p : Nat × List Int => (List.range idx.length).map
      (fun i => (p.1 + get_index idx i * es, p.2.getD i 0)))] at e1
  simp only [store_indexed, hr, Option.map_some']
  rw [e1]

/-- Supported shapes are well formed. -/
theorem supported_wfShape {α : Type} (b : Agg α) (h : supported b = true) :
    wfShape b = true := by
  cases b with
  | leaf a => rfl
  | pair x y =>
      simp only [supported, Bool.and_eq_true] at h
      cases x <;> cases y <;> simp [isArithmetic] at h <;> rfl
  | vec l =>
      simp only [supported, List.all_eq_true] at h
      simp only [wfShape]
      induction l with
      | nil => rfl
      | cons e es ih =>
          simp only [vecFreeList, Bool.and_eq_true]
          refine ⟨?_, ih (fun x hx => h x (List.mem_cons_of_mem e hx))⟩
          have he := h e (List.mem_cons_self e es)
          cases e <;> simp [isArithmetic, vecFree] at he ⊢

/-- The positional pair of two lists read at the same valid index is a
member of their zip. -/
theorem zip_getD_mem {α β : Type} (A : List α) (V : List β) (p : Nat)
    (hA : p < A.length) (hV : p < V.length) (dA : α) (dB : β) :
    (A.getD p dA, V.getD p dB) ∈ A.zip V := by
  have h1 : A.getD p dA = A[p] := List.getD_eq_getElem A dA hA
  have h2 : V.getD p dB = V[p] := List.getD_eq_getElem V dB hV
  rw [h1, h2]
  have : (A.zip V)[p]? = some (A[p], V[p]) := by
    apply List.getElem?_zip_eq_some.mpr
    exact ⟨List.getElem?_eq_getElem hA, List.getElem?_eq_getElem hV⟩
  exact List.getElem?_mem this

/-- Reading a mapped range at a valid index. -/
theorem range_map_getD {β : Type} (N i : Nat) (f : Nat → β) (d : β)
    (hi : i < N) :
    (((List.range N).map f).getD i d) = f i := by
  have hlen : i < ((List.range N).map f).length := by
    simpa using hi
  rw [List.getD_eq_getElem _ d hlen]
  simp

/-- C1: for a contiguous block of `SimdSize` consecutive instances of a
supported scalar type (a single arithmetic field, a pair of two arithmetic
fields, or a fixed-length sequence of arithmetic fields), a contiguous
`load` followed by a contiguous `store` into a second, equally shaped
block with pairwise distinct write addresses (disjointness of the target
instances) reproduces in the second block every scalar of every one of
the `SimdSize` source instances: the byte at member offset `p`, lane `i`
of the destination block equals the corresponding byte of the source
block. -/
theorem load_store_roundtrip_linear
    (es N : Nat) (mem : Mem) (b1 b2 : Agg Nat) (p i : Nat)
    (hsup : supported b1 = true)
    (hsh : sameShape b1 b2 = true)
    (hnd : (writeAddrs es N (leaves b2)).Nodup)
    (hp : p < (leaves b1).length)
    (hi : i < N) :
    ((load_linear es N mem b1).bind
        (fun v => store_linear es N b2 v mem)).map
      (fun m2 => m2 ((leaves b2).getD p 0 + i * es))
      = some (mem ((leaves b1).getD p 0 + i * es)) := by
  have hwf : wfShape b1 = true := supported_wfShape b1 hsup
  -- the load succeeds and its leaves are the leaf-level contiguous loads
  rcases Option.map_eq_some'.mp (load_linear_leaves es N mem b1 hwf) with
    ⟨v, hv, hleaves⟩
  have hshv : sameShape b2 v = true := by
    rcases Option.map_eq_some'.mp hv with ⟨r, hrr, hr2⟩
    have hs1 : sameShape (simdized_value N b1) r.2 = true :=
      simd_members_shape _ () (simdized_value N b1) b1 r hrr
    rw [hr2] at hs1
    exact sameShape_trans b2 b1 v (sameShape_symm b1 b2 hsh)
      (sameShape_trans b1 (simdized_value N b1) v
        (sameShape_symm (simdized_value N b1) b1 (simdized_value_shape N b1 hwf)) hs1)
  have hstore := store_linear_eq es N b2 v mem hshv
  rw [hv, Option.some_bind, hstore, Option.map_some']
  -- index bookkeeping
  have hlen12 : (leaves b1).length = (leaves b2).length := sameShape_length b1 b2 hsh
  have hlen2v : (leaves b2).length = (leaves v).length := sameShape_length b2 v hshv
  have hp2 : p < (leaves b2).length := hlen12 ▸ hp
  have hpv : p < (leaves v).length := hlen2v ▸ hp2
  -- the flattened write list and its addresses
  set WS := ((leaves b2).zip (leaves v)).flatMap
    (fun q => (List.range N).map (fun j => (q.1 + j * es, q.2.getD j 0))) with hWS
  have haddrs : WS.map Prod.fst = writeAddrs es N (leaves b2) := by
    rw [hWS, List.map_flatMap]
    have h1 : ∀ q : Nat × List Int,
        ((List.range N).map (fun j => (q.1 + j * es, q.2.getD j 0))).map Prod.fst
          = (List.range N).map (fun j => q.1 + j * es) := by
      intro q
      rw [List.map_map]
      rfl
    calc ((leaves b2).zip (leaves v)).flatMap
          (fun q => ((List.range N).map (fun j => (q.1 + j * es, q.2.getD j 0))).map Prod.fst)
        = ((leaves b2).zip (leaves v)).flatMap
          (fun q => (List.range N).map (fun j => q.1 + j * es)) := by
          exact List.flatMap_congr (fun q _ => h1 q)
      _ = (((leaves b2).zip (leaves v)).map Prod.fst).flatMap
          (fun a => (List.range N).map (fun j => a + j * es)) := by
          rw [List.flatMap_map]
      _ = writeAddrs es N (leaves b2) := by
          rw [List.map_fst_zip _ _ (le_of_eq hlen2v)]
          rfl
  -- the value stored for member p, lane i
  have hvp : (leaves v).getD p [] = leaf_load_linear es N mem ((leaves b1).getD p 0) := by
    rw [hleaves]
    have : ((leaves b1).map (fun a => leaf_load_linear es N mem a)).getD p []
        = leaf_load_linear es N mem ((leaves b1)[p]) := by
      have hpm : p < ((leaves b1).map (fun a => leaf_load_linear es N mem a)).length := by
        simpa using hp
      rw [List.getD_eq_getElem _ _ hpm]
      simp
    rw [this, List.getD_eq_getElem _ _ hp]
  have hlane : ((leaves v).getD p []).getD i 0 = mem ((leaves b1).getD p 0 + i * es) := by
    rw [hvp]
    exact range_map_getD N i _ 0 hi
  -- membership of the relevant write in the flattened write list
  have hmem : ((leaves b2).getD p 0 + i * es, mem ((leaves b1).getD p 0 + i * es)) ∈ WS := by
    rw [hWS]
    apply List.mem_flatMap.mpr
    refine ⟨((leaves b2).getD p 0, (leaves v).getD p []), zip_getD_mem _ _ p hp2 hpv 0 [], ?_⟩
    apply List.mem_map.mpr
    refine ⟨i, List.mem_range.mpr hi, ?_⟩
    rw [hlane]
  exact congrArg some (applyWrites_nodup_mem WS mem _ _ (haddrs ▸ hnd) hmem)

/-- C8: with an index list that is a permutation of `[0, N)` over a block
of `N` scalar instances, an indexed (gather) load followed by a contiguous
store into a second, equally shaped, disjoint block puts into destination
lane `i` of every member exactly lane `indices[i]` of the direct
contiguous load of the original block: gather-by-permutation is a
reordering of the lanes. -/
theorem gather_permutation_is_reordering
    (es N : Nat) (mem : Mem) (idx : List Nat) (b1 b2 : Agg Nat) (p i : Nat)
    (hsup : supported b1 = true)
    (hsh : sameShape b1 b2 = true)
    (hperm : idx.Perm (List.range N))
    (hnd : (writeAddrs es N (leaves b2)).Nodup)
    (hp : p < (leaves b1).length)
    (hi : i < N) :
    ((load_indexed es N mem idx b1).bind
        (fun v => store_linear es N b2 v mem)).map
      (fun m2 => m2 ((leaves b2).getD p 0 + i * es))
      = (load_linear es N mem b1).map
          (fun v => ((leaves v).getD p []).getD (get_index idx i) 0) := by
  have hwf : wfShape b1 = true := supported_wfShape b1 hsup
  have hlenidx : idx.length = N := by
    have := hperm.length_eq
    simpa using this
  have hik : get_index idx i < N := by
    have him : idx.getD i 0 ∈ idx := by
      rw [List.getD_eq_getElem idx 0 (hlenidx ▸ hi)]
      exact List.getElem_mem _
    have := (hperm.mem_iff).mp him
    simpa [get_index, List.mem_range] using this
  -- the gather load succeeds and its leaves are the leaf-level gathers
  rcases Option.map_eq_some'.mp (load_indexed_leaves es N mem idx b1 hwf) with
    ⟨v, hv, hleaves⟩
  have hshv : sameShape b2 v = true := by
    rcases Option.map_eq_some'.mp hv with ⟨r, hrr, hr2⟩
    have hs1 : sameShape (simdized_value N b1) r.2 = true :=
      simd_members_shape _ () (simdized_value N b1) b1 r hrr
    rw [hr2] at hs1
    exact sameShape_trans b2 b1 v (sameShape_symm b1 b2 hsh)
      (sameShape_trans b1 (simdized_value N b1) v
        (sameShape_symm (simdized_value N b1) b1 (simdized_value_shape N b1 hwf)) hs1)
  have hstore := store_linear_eq es N b2 v mem hshv
  rw [hv, Option.some_bind, hstore, Option.map_some']
  -- index bookkeeping
  have hlen12 : (leaves b1).length = (leaves b2).length := sameShape_length b1 b2 hsh
  have hlen2v : (leaves b2).length = (leaves v).length := sameShape_length b2 v hshv
  have hp2 : p < (leaves b2).length := hlen12 ▸ hp
  have hpv : p < (leaves v).length := hlen2v ▸ hp2
  set WS := ((leaves b2).zip (leaves v)).flatMap
    (fun q => (List.range N).map (fun j => (q.1 + j * es, q.2.getD j 0))) with hWS
  have haddrs : WS.map Prod.fst = writeAddrs es N (leaves b2) := by
    rw [hWS, List.map_flatMap]
    have h1 : ∀ q : Nat × List Int,
        ((List.range N).map (fun j => (q.1 + j * es, q.2.getD j 0))).map Prod.fst
          = (List.range N).map (fun j => q.1 + j * es) := by
      intro q
      rw [List.map_map]
      rfl
    calc ((leaves b2).zip (leaves v)).flatMap
          (fun q => ((List.range N).map (fun j => (q.1 + j * es, q.2.getD j 0))).map Prod.fst)
        = ((leaves b2).zip (leaves v)).flatMap
          (fun q => (List.range N).map (fun j => q.1 + j * es)) := by
          exact List.flatMap_congr (fun q _ => h1 q)
      _ = (((leaves b2).zip (leaves v)).map Prod.fst).flatMap
          (fun a => (List.range N).map (fun j => a + j * es)) := by
          rw [List.flatMap_map]
      _ = writeAddrs es N (leaves b2) := by
          rw [List.map_fst_zip _ _ (le_of_eq hlen2v)]
          rfl
  -- the gathered value of member p, lane i
  have hvp : (leaves v).getD p [] = leaf_load_indexed es mem ((leaves b1).getD p 0) idx := by
    rw [hleaves]
    have hpm : p < ((leaves b1).map (fun a => leaf_load_indexed es mem a idx)).length := by
      simpa using hp
    rw [List.getD_eq_getElem _ _ hpm, List.getElem_map, List.getD_eq_getElem _ _ hp]
  have hlane : ((leaves v).getD p []).getD i 0
      = mem ((leaves b1).getD p 0 + get_index idx i * es) := by
    rw [hvp]
    exact range_map_getD idx.length i _ 0 (hlenidx ▸ hi)
  -- membership of the relevant write
  have hmem : ((leaves b2).getD p 0 + i * es,
      mem ((leaves b1).getD p 0 + get_index idx i * es)) ∈ WS := by
    rw [hWS]
    apply List.mem_flatMap.mpr
    refine ⟨((leaves b2).getD p 0, (leaves v).getD p []), zip_getD_mem _ _ p hp2 hpv 0 [], ?_⟩
    apply List.mem_map.mpr
    refine ⟨i, List.mem_range.mpr hi, ?_⟩
    rw [hlane]
  rw [applyWrites_nodup_mem WS mem _ _ (haddrs ▸ hnd) hmem]
  -- the direct contiguous load, reordered by the permutation
  rcases Option.map_eq_some'.mp (load_linear_leaves es N mem b1 hwf) with
    ⟨w, hw, hwleaves⟩
  rw [hw, Option.map_some']
  have hwp : (leaves w).getD p [] = leaf_load_linear es N mem ((leaves b1).getD p 0) := by
    rw [hwleaves]
    have hpm : p < ((leaves b1).map (fun a => leaf_load_linear es N mem a)).length := by
      simpa using hp
    rw [List.getD_eq_getElem _ _ hpm, List.getElem_map, List.getD_eq_getElem _ _ hp]
  rw [hwp]
  simp only [leaf_load_linear]
  rw [range_map_getD N (get_index idx i) _ 0 hik]

/-- C5: for indexed (gather/scatter) access on a composite, the per-lane
address rule of every leaf is `memberAddress + indices[i]*ElementSize`,
and the parent's index list is reused unchanged at every leaf: the gather
load produces, for every leaf, the gather of that leaf's member address
with the identical index list, and the scatter store applies, for every
leaf, the scatter writes of that leaf's member address with the identical
index list. -/
theorem indexed_access_same_indices_every_leaf
    (es N : Nat) (mem : Mem) (idx : List Nat) (b b2 : Agg Nat)
    (v : Agg (List Int))
    (hwf : wfShape b = true)
    (hsh : sameShape b2 v = true) :
    ((load_indexed es N mem idx b).map leaves
        = some ((leaves b).map
            (fun a => (List.range idx.length).map
              (fun i => mem (a + get_index idx i * es)))))
    ∧ (store_indexed es N idx b2 v mem
        = some (applyWrites
            (((leaves b2).zip (leaves v)).flatMap
              (fun q => (List.range idx.length).map
                (fun i => (q.1 + get_index idx i * es, q.2.getD i 0))))
            mem)) := by
  constructor
  · have h := load_indexed_leaves es N mem idx b hwf
    simpa [leaf_load_indexed] using h
  · exact store_indexed_eq es N idx b2 v mem hsh

/-- C2: on two operands of structurally matching shape (one vectorized and
one scalar, or both vectorized, per the leaf payload types), `simd_members`
invokes the supplied two-argument operation exactly once per corresponding
leaf pair, in traversal order: the run is precisely the fold of the
operation over the list of corresponding leaf pairs, in which each pair
contributes exactly one invocation, so no leaf pair is visited twice and
none is skipped. -/
theorem simd_members_once_per_leaf_pair
    {σ β γ : Type} (f : σ → β → γ → σ × β) (st : σ) (d : Agg β) (s : Agg γ)
    (h : sameShape d s = true) :
    (simd_members f st d s).map (fun r => (r.1, leaves r.2))
      = some (leafFold f st ((leaves d).zip (leaves s))) :=
  simd_members_eq_leafFold f st d s h

/-- The zip of two lists read at a common valid index is the pair of the
positional reads. -/
theorem zip_getD {α β : Type} (A : List α) (V : List β) (p : Nat)
    (hA : p < A.length) (hV : p < V.length) (dA : α) (dB : β) :
    (A.zip V).getD p (dA, dB) = (A.getD p dA, V.getD p dB) := by
  have hz : p < (A.zip V).length := by
    rw [List.length_zip]
    exact lt_min hA hV
  have hsome : (A.zip V)[p]? = some (A[p], V[p]) :=
    List.getElem?_zip_eq_some.mpr
      ⟨List.getElem?_eq_getElem hA, List.getElem?_eq_getElem hV⟩
  have hval : (A.zip V)[p] = (A[p], V[p]) := by
    have := List.getElem?_eq_getElem hz
    rw [this] at hsome
    exact Option.some.inj hsome
  rw [List.getD_eq_getElem _ _ hz, hval,
    List.getD_eq_getElem A dA hA, List.getD_eq_getElem V dB hV]

/-- C3: executing `where(mask, dest) = source` on structurally matching
vectorized aggregates performs a lane-selective write at every leaf: lane
`i` of leaf `p` of the result is lane `i` of the corresponding source leaf
when `mask[i]` is true, and the prior lane `i` of the destination leaf
when `mask[i]` is false. -/
theorem where_assignment_lane_select
    (mask : List Bool) (dest source : Agg (List Int)) (N p i : Nat)
    (hsh : sameShape dest source = true)
    (hp : p < (leaves dest).length)
    (hdN : ((leaves dest).getD p []).length = N)
    (hsN : ((leaves source).getD p []).length = N)
    (hmN : mask.length = N)
    (hi : i < N) :
    ((simd_where mask dest).assign source).map
      (fun d2 => ((leaves d2).getD p []).getD i 0)
      = some (if mask.getD i false
              then ((leaves source).getD p []).getD i 0
              else ((leaves dest).getD p []).getD i 0) := by
  have hmain := simd_members_eq_leafFold
    (fun (u : Unit) (d : List Int) (s : List Int) =>
      (u, leaf_masked_assign ((simd_where mask dest).mask_) d s))
    () dest source hsh
  rcases Option.map_eq_some'.mp hmain with ⟨r, hr, heq⟩
  have e2 := congrArg Prod.snd heq
  simp only at e2
  rw [leafFold_unit (fun d s => leaf_masked_assign ((simd_where mask dest).mask_) d s)] at e2
  simp only at e2
  have hlen : (leaves dest).length = (leaves source).length :=
    sameShape_length dest source hsh
  have hps : p < (leaves source).length := hlen ▸ hp
  have hdst : (simd_where mask dest).destination_ = dest := rfl
  simp only [where_expression.assign, hdst, Option.map_map, hr, Option.map_some',
    Function.comp]
  rw [e2]
  have hz : p < ((leaves dest).zip (leaves source)).length := by
    rw [List.length_zip]
    exact lt_min hp hps
  have hpz : p < (((leaves dest).zip (leaves source)).map
      (fun q => leaf_masked_assign ((simd_where mask dest).mask_) q.1 q.2)).length := by
    rw [List.length_map]
    exact hz
  rw [List.getD_eq_getElem _ _ hpz, List.getElem_map]
  have hzval : ((leaves dest).zip (leaves source))[p]
      = ((leaves dest)[p], (leaves source)[p]) := by
    have hsome : ((leaves dest).zip (leaves source))[p]? = some ((leaves dest)[p], (leaves source)[p]) :=
      List.getElem?_zip_eq_some.mpr
        ⟨List.getElem?_eq_getElem hp, List.getElem?_eq_getElem hps⟩
    rw [List.getElem?_eq_getElem hz] at hsome
    exact Option.some.inj hsome
  rw [hzval]
  have hmask : (simd_where mask dest).mask_ = mask := rfl
  have hdlen : ((leaves dest)[p] : List Int).length = N := by
    rw [← List.getD_eq_getElem (leaves dest) [] hp]
    exact hdN
  simp only [leaf_masked_assign, hmask]
  rw [range_map_getD ((leaves dest)[p] : List Int).length i _ 0 (hdlen ▸ hi)]
  rw [List.getD_eq_getElem (leaves dest) [] hp, List.getD_eq_getElem (leaves source) [] hps]

/-- The default mirror computed from a value of static type `t` is the
default mirror of `t`. -/
theorem defaultMirrorOfVal_eq_defaultMirror {α : Type} (N : Nat) :
    ∀ (e : Agg α) (t : Ty), hasTy e t = true →
      defaultMirrorOfVal N e = defaultMirror N t
  | .leaf _, .scalar, _ => rfl
  | .pair x y, .pair a b, h => by
      simp only [hasTy, Bool.and_eq_true] at h
      simp only [defaultMirrorOfVal, defaultMirror]
      rw [defaultMirrorOfVal_eq_defaultMirror N x a h.1,
        defaultMirrorOfVal_eq_defaultMirror N y b h.2]
  | .vec _, .vec _, _ => rfl
  | .leaf _, .pair _ _, h => by simp [hasTy] at h
  | .leaf _, .vec _, h => by simp [hasTy] at h
  | .pair _ _, .scalar, h => by simp [hasTy] at h
  | .pair _ _, .vec _, h => by simp [hasTy] at h
  | .vec _, .scalar, h => by simp [hasTy] at h
  | .vec _, .pair _ _, h => by simp [hasTy] at h

/-- C6: for a variable-length homogeneous sequence value (a `std::vector`
whose members are instances of the element type `t`), `simdized_value`
produces a sequence whose runtime length equals the value's length at the
moment of construction, each of whose members is the independently
computed (default-constructed) mirror of the element type. -/
theorem simdized_vector_runtime_length
    {α : Type} (N : Nat) (l : List (Agg α)) (t : Ty)
    (h : hasTyList l t = true) :
    simdized_value N (Agg.vec l)
      = Agg.vec (List.replicate l.length (defaultMirror N t)) := by
  simp only [simdized_value]
  congr 1
  induction l with
  | nil => rfl
  | cons e es ih =>
      simp only [hasTyList, Bool.and_eq_true] at h
      simp only [List.map_cons, List.length_cons, List.replicate_succ]
      rw [defaultMirrorOfVal_eq_defaultMirror N e t h.1, ih h.2]

/-- C10: constructing the deferred-assignment wrapper performs no write to
the destination; the wrapper stores the mask by value at construction, so
the deferred assignment is unaffected by any later overwrite of the
caller's mask object: the trace in which the caller's mask object is
overwritten with `mask1` between construction and assignment produces the
same result as the trace in which it is left at `mask0`, and the stored
mask member equals the construction-time mask. -/
theorem where_defers_writes_and_copies_mask
    (mask0 mask1 : List Bool) (dest source : Agg (List Int)) :
    (where_deferred_trace mask0 mask1 dest source).1 = dest
    ∧ (where_deferred_trace mask0 mask1 dest source).2
        = (where_deferred_trace mask0 mask0 dest source).2
    ∧ (simd_where mask0 dest).mask_ = mask0 :=
  ⟨rfl, rfl, rfl⟩

mutual
/-- Run of the recording functor from an arbitrary starting log: the log
grows by appending, independently of what was recorded before. -/
theorem simd_members_log_shift {β γ : Type} :
    ∀ (st : List (β × γ)) (d : Agg β) (s : Agg γ),
      simd_members logStep st d s
        = (simd_members logStep [] d s).map (fun r => (st ++ r.1, r.2))
  | st, .leaf d, .leaf s => by simp [simd_members, logStep]
  | st, .pair d1 d2, .pair s1 s2 => by
      simp only [simd_members, Option.bind_eq_bind]
      rw [simd_members_log_shift st d1 s1]
      rcases h1 : simd_members logStep [] d1 s1 with _ | r1
      · simp
      · simp only [Option.map_some', Option.some_bind]
        rw [simd_members_log_shift (st ++ r1.1) d2 s2,
          simd_members_log_shift r1.1 d2 s2]
        rcases h2 : simd_members logStep [] d2 s2 with _ | r2
        · simp
        · simp [List.append_assoc]
  | st, .vec ds, .vec ss => by
      simp only [simd_members, Option.bind_eq_bind]
      rw [simd_members_list_log_shift st ds ss]
      rcases h : simd_members_list logStep [] ds ss with _ | r
      · simp
      · simp
  | _, .leaf _, .pair _ _ => by simp [simd_members]
  | _, .leaf _, .vec _ => by simp [simd_members]
  | _, .pair _ _, .leaf _ => by simp [simd_members]
  | _, .pair _ _, .vec _ => by simp [simd_members]
  | _, .vec _, .leaf _ => by simp [simd_members]
  | _, .vec _, .pair _ _ => by simp [simd_members]

/-- List version of `simd_members_log_shift`. -/
theorem simd_members_list_log_shift {β γ : Type} :
    ∀ (st : List (β × γ)) (ds : List (Agg β)) (ss : List (Agg γ)),
      simd_members_list logStep st ds ss
        = (simd_members_list logStep [] ds ss).map (fun r => (st ++ r.1, r.2))
  | st, [], ss => by simp [simd_members_list]
  | st, _ :: _, [] => by simp [simd_members_list]
  | st, d :: ds, s :: ss => by
      simp only [simd_members_list, Option.bind_eq_bind]
      rw [simd_members_log_shift st d s]
      rcases h1 : simd_members logStep [] d s with _ | r1
      · simp
      · simp only [Option.map_some', Option.some_bind]
        rw [simd_members_list_log_shift (st ++ r1.1) ds ss,
          simd_members_list_log_shift r1.1 ds ss]
        rcases h2 : simd_members_list logStep [] ds ss with _ | r2
        · simp
        · simp [List.append_assoc]
end

/-- The call log of the vector overload is the ascending-index
concatenation of the call logs of the element pairs, the loop bound taken
from the destination list (the zip stops at the destination's length). -/
theorem visit_log_vec_aux {β γ : Type} :
    ∀ (ds : List (Agg β)) (ss : List (Agg γ)), ds.length ≤ ss.length →
      (simd_members_list logStep [] ds ss).map (fun r => r.1)
        = ((ds.zip ss).mapM (fun q => visit_log q.1 q.2)).map List.flatten
  | [], ss, _ => by
      rw [List.zip_nil_left, List.mapM_nil]
      simp [simd_members_list]
  | _ :: _, [], h => by simp at h
  | d :: ds, s :: ss, h => by
      simp only [List.length_cons, Nat.succ_le_succ_iff] at h
      have hvl : visit_log d s = (simd_members logStep [] d s).map (fun r => r.1) := rfl
      simp only [simd_members_list, Option.bind_eq_bind, List.zip_cons_cons,
        List.mapM_cons]
      rcases h1 : simd_members logStep [] d s with _ | r1
      · rw [h1, Option.map_none'] at hvl
        rw [hvl]
        simp
      · rw [h1, Option.map_some'] at hvl
        rw [hvl]
        simp only [Option.some_bind]
        rw [simd_members_list_log_shift r1.1 ds ss]
        have ih := visit_log_vec_aux ds ss h
        rcases h2 : simd_members_list logStep [] ds ss with _ | r2
        · rw [h2, Option.map_none'] at ih
          have hmm : (ds.zip ss).mapM (fun q => visit_log q.1 q.2) = none :=
            Option.map_eq_none'.mp ih.symm
          rw [hmm]
          simp
        · rw [h2, Option.map_some'] at ih
          rcases Option.map_eq_some'.mp ih.symm with ⟨L, hL, hLf⟩
          rw [hL]
          simp [hLf]

/-- C7: the traversal order of the visitor is fixed and deterministic.
For a pair the call log is the log of the first member pair followed by
the log of the second. For a vector the call log is the ascending-index
concatenation of the element-pair logs, the element count taken from the
destination's length, each destination element paired with the source
element at the same index (a longer source has its excess elements
ignored). -/
theorem visitor_order_fixed
    {β γ : Type} (d1 d2 : Agg β) (s1 s2 : Agg γ)
    (ds : List (Agg β)) (ss : List (Agg γ))
    (hlen : ds.length ≤ ss.length) :
    (visit_log (Agg.pair d1 d2) (Agg.pair s1 s2)
        = do
            let l1 ← visit_log d1 s1
            let l2 ← visit_log d2 s2
            pure (l1 ++ l2))
    ∧ (visit_log (Agg.vec ds) (Agg.vec ss)
        = do
            let logs ← (ds.zip ss).mapM (fun q => visit_log q.1 q.2)
            pure logs.flatten) := by
  constructor
  · simp only [visit_log, simd_members, Option.bind_eq_bind]
    rcases h1 : simd_members logStep [] d1 s1 with _ | r1
    · simp
    · simp only [Option.map_some', Option.some_bind]
      rw [simd_members_log_shift r1.1 d2 s2]
      rcases h2 : simd_members logStep [] d2 s2 with _ | r2
      · simp
      · simp
  · have hv : visit_log (Agg.vec ds) (Agg.vec ss)
        = (simd_members_list logStep [] ds ss).map (fun r => r.1) := by
      simp only [visit_log, simd_members, Option.bind_eq_bind]
      rcases h : simd_members_list logStep [] ds ss with _ | r
      · simp
      · simp
    rw [hv, visit_log_vec_aux ds ss hlen]
    rw [show (do
          let logs ← (ds.zip ss).mapM (fun q => visit_log q.1 q.2)
          pure logs.flatten : Option (List (β × γ)))
        = ((ds.zip ss).mapM (fun q => visit_log q.1 q.2)).bind
            (some ∘ List.flatten) from rfl]
    exact Option.map_eq_bind

mutual
/-- Shape equality is reflexive. -/
theorem sameShape_refl {α : Type} : ∀ (d : Agg α), sameShape d d = true
  | .leaf _ => rfl
  | .pair x y => by
      simp only [sameShape, Bool.and_eq_true]
      exact ⟨sameShape_refl x, sameShape_refl y⟩
  | .vec l => by
      simp only [sameShape]
      exact sameShapeList_refl l

/-- List version of `sameShape_refl`. -/
theorem sameShapeList_refl {α : Type} : ∀ (l : List (Agg α)), sameShapeList l l = true
  | [] => rfl
  | x :: xs => by
      simp only [sameShapeList, Bool.and_eq_true]
      exact ⟨sameShape_refl x, sameShapeList_refl xs⟩
end

/-- The default mirror of a vector-free static type has the shape of any
instance of that type. -/
theorem defaultMirror_shape {α : Type} (N : Nat) :
    ∀ (t : Ty) (e : Agg α), tyVecFree t = true → hasTy e t = true →
      sameShape (defaultMirror N t) e = true
  | .scalar, .leaf _, _, _ => rfl
  | .pair a b, .pair x y, ht, he => by
      simp only [tyVecFree, Bool.and_eq_true] at ht
      simp only [hasTy, Bool.and_eq_true] at he
      simp only [defaultMirror, sameShape, Bool.and_eq_true]
      exact ⟨defaultMirror_shape N a x ht.1 he.1, defaultMirror_shape N b y ht.2 he.2⟩
  | .vec _, _, ht, _ => by simp [tyVecFree] at ht
  | .scalar, .pair _ _, _, he => by simp [hasTy] at he
  | .scalar, .vec _, _, he => by simp [hasTy] at he
  | .pair _ _, .leaf _, _, he => by simp [hasTy] at he
  | .pair _ _, .vec _, _, he => by simp [hasTy] at he

/-- Every lane container of the default mirror has `SimdSize` lanes. -/
theorem defaultMirror_leaf_lengths (N : Nat) :
    ∀ (t : Ty) (l : List Int), l ∈ leaves (defaultMirror N t) → l.length = N
  | .scalar, l, h => by
      simp only [defaultMirror, leaves, List.mem_singleton] at h
      rw [h, List.length_replicate]
  | .pair a b, l, h => by
      simp only [defaultMirror, leaves, List.mem_append] at h
      rcases h with h | h
      · exact defaultMirror_leaf_lengths N a l h
      · exact defaultMirror_leaf_lengths N b l h
  | .vec _, l, h => by simp [defaultMirror, leaves, leavesList] at h

/-- The zip of two lists read at a common valid index. -/
theorem getElem_zip_pair {α β : Type} (A : List α) (V : List β) (p : Nat)
    (hA : p < A.length) (hV : p < V.length) (hz : p < (A.zip V).length) :
    (A.zip V)[p] = (A[p], V[p]) := by
  have hsome : (A.zip V)[p]? = some (A[p], V[p]) :=
    List.getElem?_zip_eq_some.mpr
      ⟨List.getElem?_eq_getElem hA, List.getElem?_eq_getElem hV⟩
  rw [List.getElem?_eq_getElem hz] at hsome
  exact Option.some.inj hsome

/-- Reading a lane after an in-range lane write. -/
theorem getD_set_lt (l : List Int) (j k : Nat) (v : Int)
    (hj : j < l.length) (hk : k < l.length) :
    (l.set j v).getD k 0 = if j = k then v else l.getD k 0 := by
  have hk2 : k < (l.set j v).length := by simpa using hk
  rw [List.getD_eq_getElem _ _ hk2, List.getElem_set, List.getD_eq_getElem _ _ hk]

/-- One iteration of the `load_rvalue` loop on lane `i`: the visitor pairs
the accumulated mirror with the lane's scalar instance and executes
`dest[i] = src` on every leaf pair. -/
theorem set_step_leaves (i : Nat) (acc : Agg (List Int)) (e : Agg Int)
    (h : sameShape acc e = true) :
    ∃ out,
      (simd_members (fun (u : Unit) (d : List Int) (s : Int) => (u, d.set i s)) () acc e).map
          (fun r => r.2) = some out
      ∧ sameShape out e = true
      ∧ (leaves out).length = (leaves acc).length
      ∧ ∀ p, p < (leaves acc).length →
          (leaves out).getD p [] = ((leaves acc).getD p []).set i ((leaves e).getD p 0) := by
  have hmain := simd_members_eq_leafFold
    (fun (u : Unit) (d : List Int) (s : Int) => (u, d.set i s)) () acc e h
  rcases Option.map_eq_some'.mp hmain with ⟨r, hr, heq⟩
  have e2 := congrArg Prod.snd heq
  simp only at e2
  rw [leafFold_unit (fun (d : List Int) (s : Int) => d.set i s)] at e2
  simp only at e2
  have hlen := sameShape_length acc e h
  refine ⟨r.2, by rw [hr]; rfl, ?_, ?_, ?_⟩
  · have h1 := simd_members_shape _ () acc e r hr
    exact sameShape_trans r.2 acc e (sameShape_symm acc r.2 h1) h
  · rw [e2, List.length_map, List.length_zip, hlen, Nat.min_self, ← hlen]
  · intro p hp
    rw [e2]
    have hpe : p < (leaves e).length := hlen ▸ hp
    have hz : p < ((leaves acc).zip (leaves e)).length := by
      rw [List.length_zip]
      exact lt_min hp hpe
    have hpm : p < (((leaves acc).zip (leaves e)).map (fun q => q.1.set i q.2)).length := by
      rw [List.length_map]
      exact hz
    rw [List.getD_eq_getElem _ _ hpm, List.getElem_map,
      getElem_zip_pair _ _ p hp hpe hz,
      List.getD_eq_getElem _ _ hp, List.getD_eq_getElem _ _ hpe]

/-- Invariant of the `load_rvalue` loop over a list of pairwise distinct
lane indices: the loop succeeds, preserves the mirror's shape and lane
counts, and afterwards lane `k` of every leaf holds leaf `p` of the lane
`k` instance if `k` was processed, and its prior value otherwise. -/
theorem rv_loop_char (g : Nat → Agg Int) (t : Ty) (N : Nat)
    (ht : tyVecFree t = true) :
    ∀ (idxs : List Nat) (acc : Agg (List Int)),
      idxs.Nodup → (∀ j ∈ idxs, j < N) → (∀ j ∈ idxs, hasTy (g j) t = true) →
      sameShape acc (defaultMirror N t) = true →
      (∀ p, p < (leaves acc).length → ((leaves acc).getD p []).length = N) →
      ∃ out,
        idxs.foldlM (fun a i =>
            (simd_members (fun (u : Unit) (d : List Int) (s : Int) => (u, d.set i s)) () a (g i)).map
              (fun r => r.2)) acc = some out
        ∧ sameShape out (defaultMirror N t) = true
        ∧ (leaves out).length = (leaves acc).length
        ∧ (∀ p, p < (leaves acc).length → ((leaves out).getD p []).length = N)
        ∧ ∀ p, p < (leaves acc).length → ∀ k, k < N →
            ((leaves out).getD p []).getD k 0
              = if k ∈ idxs then (leaves (g k)).getD p 0
                else ((leaves acc).getD p []).getD k 0
  | [], acc, _, _, _, hshape, hlanes =>
      ⟨acc, by simp, hshape, rfl, hlanes, by
        intro p hp k hk
        simp⟩
  | j :: idxs, acc, hnd, hbound, hty, hshape, hlanes => by
      have hndc := List.nodup_cons.mp hnd
      have htyj := hty j (List.mem_cons_self j idxs)
      have hse : sameShape acc (g j) = true :=
        sameShape_trans acc (defaultMirror N t) (g j) hshape
          (defaultMirror_shape N t (g j) ht htyj)
      rcases set_step_leaves j acc (g j) hse with ⟨mid, hmid, hmidsh, hmidlen, hmidleaf⟩
      have hmidshape : sameShape mid (defaultMirror N t) = true :=
        sameShape_trans mid (g j) (defaultMirror N t) hmidsh
          (sameShape_symm _ _ (defaultMirror_shape N t (g j) ht htyj))
      have hmidlanes : ∀ p, p < (leaves mid).length → ((leaves mid).getD p []).length = N := by
        intro p hp
        have hpa : p < (leaves acc).length := hmidlen ▸ hp
        rw [hmidleaf p hpa, List.length_set]
        exact hlanes p hpa
      rcases rv_loop_char g t N ht idxs mid hndc.2
          (fun x hx => hbound x (List.mem_cons_of_mem j hx))
          (fun x hx => hty x (List.mem_cons_of_mem j hx))
          hmidshape hmidlanes with ⟨out, hfold, hoshape, holen, holanes, hoval⟩
      refine ⟨out, ?_, hoshape, by rw [holen, hmidlen], ?_, ?_⟩
      · simp only [List.foldlM_cons, hmid, Option.bind_eq_bind, Option.some_bind]
        exact hfold
      · intro p hp
        exact holanes p (hmidlen ▸ hp)
      · intro p hp k hk
        have hpm : p < (leaves mid).length := hmidlen ▸ hp
        have hval := hoval p hpm k hk
        have hjN : j < N := hbound j (List.mem_cons_self j idxs)
        have hlj : j < ((leaves acc).getD p []).length := by rw [hlanes p hp]; exact hjN
        have hlk : k < ((leaves acc).getD p []).length := by rw [hlanes p hp]; exact hk
        by_cases hkin : k ∈ idxs
        · rw [hval]
          simp [hkin, List.mem_cons_of_mem j hkin]
        · rw [hval]
          simp only [hkin, if_false]
          rw [hmidleaf p hp, getD_set_lt _ j k _ hlj hlk]
          by_cases hkj : k = j
          · subst hkj
            simp [List.mem_cons_self]
          · have : ¬ (k ∈ j :: idxs) := by
              simp [List.mem_cons, hkj, hkin]
            simp [this, Ne.symm hkj]

/-- C4 counterexample: for a sequence base type (here `std::vector<int>`),
the default-initialized result mirror
`decltype(simdized_value<idx.size()>(declval<BaseType>())) result;` is the
empty vector, so the visitor's `std::vector` overload iterates zero times
and the instances' leaves are never copied: the result has no leaves even
though every accessor instance has one. -/
theorem load_rvalue_sequence_drops_leaves :
    load_rvalue (Ty.vec Ty.scalar)
        (fun k => Agg.vec [Agg.leaf ((k : Int) + 1)]) [0, 1]
      = some (Agg.vec [])
    ∧ (leaves ((fun (k : Nat) => Agg.vec [Agg.leaf ((k : Int) + 1)]) 0)).length = 1 :=
  ⟨rfl, rfl⟩

/-- C4 (amended): for every non-arithmetic base type of fixed shape (no
variable-length sequence anywhere in the type, so the default-initialized
mirror has the full shape), `load_rvalue` builds the default mirror of the
base type and, for each lane `i` ascending in `[0, idx.size())`, obtains
lane `i`'s scalar instance from the accessor (with the optional
`subobject` transform applied) and copies each of that instance's leaves
into lane `i` of the corresponding mirror leaf: lane `i` of every leaf of
the result equals the corresponding leaf of the accessor's result for
lane `i`. -/
theorem load_rvalue_copies_leaves_per_lane
    (t : Ty) (base : Nat → Agg Int) (idx : List Nat)
    (subobject : Agg Int → Agg Int) (p i : Nat)
    (ht : tyVecFree t = true)
    (hsub : ∀ k, hasTy (subobject (base k)) t = true)
    (hbas : ∀ k, hasTy (base k) t = true)
    (hi : i < idx.length)
    (hp : p < (leaves (defaultMirror idx.length t)).length) :
    ((load_rvalue_subobject t base idx subobject).map
        (fun r => ((leaves r).getD p []).getD i 0)
      = some ((leaves (subobject (base (get_index idx i)))).getD p 0))
    ∧ ((load_rvalue t base idx).map
        (fun r => ((leaves r).getD p []).getD i 0)
      = some ((leaves (base (get_index idx i))).getD p 0)) := by
  have hlanes0 : ∀ q, q < (leaves (defaultMirror idx.length t)).length →
      ((leaves (defaultMirror idx.length t)).getD q []).length = idx.length := by
    intro q hq
    apply defaultMirror_leaf_lengths idx.length t
    rw [List.getD_eq_getElem _ _ hq]
    exact List.getElem_mem hq
  constructor
  · rcases rv_loop_char (fun j => subobject (base (get_index idx j))) t idx.length ht
        (List.range idx.length) (defaultMirror idx.length t)
        (List.nodup_range idx.length) (fun j hj => List.mem_range.mp hj)
        (fun j _ => hsub (get_index idx j)) (sameShape_refl _) hlanes0 with
      ⟨out, hfold, _, _, _, hval⟩
    have hdef : load_rvalue_subobject t base idx subobject
        = (List.range idx.length).foldlM (fun a k =>
            (simd_members (fun (u : Unit) (d : List Int) (s : Int) => (u, d.set k s)) () a
              ((fun j => subobject (base (get_index idx j))) k)).map
              (fun r => r.2)) (defaultMirror idx.length t) := rfl
    rw [hdef, hfold, Option.map_some']
    rw [hval p hp i hi]
    simp [List.mem_range.mpr hi]
  · rcases rv_loop_char (fun j => base (get_index idx j)) t idx.length ht
        (List.range idx.length) (defaultMirror idx.length t)
        (List.nodup_range idx.length) (fun j hj => List.mem_range.mp hj)
        (fun j _ => hbas (get_index idx j)) (sameShape_refl _) hlanes0 with
      ⟨out, hfold, _, _, _, hval⟩
    have hdef : load_rvalue t base idx
        = (List.range idx.length).foldlM (fun a k =>
            (simd_members (fun (u : Unit) (d : List Int) (s : Int) => (u, d.set k s)) () a
              ((fun j => base (get_index idx j)) k)).map
              (fun r => r.2)) (defaultMirror idx.length t) := rfl
    rw [hdef, hfold, Option.map_some']
    rw [hval p hp i hi]
    simp [List.mem_range.mpr hi]

/-- C9: concrete sequence scenario. Two consecutive scalar instances of a
3-element sequence of int32 live at unit-size addresses 0,1,2 (values
1,2,3) and 3,4,5 (values 4,5,6); the instance stride is 3. The contiguous
load with `SimdSize = 2` produces the mirror: a 3-element sequence whose
lane containers are [1,4], [2,5], [3,6]. -/
theorem sequence_mirror_concrete :
    load_linear 3 2 (fun a => (a : Int) + 1)
        (Agg.vec [Agg.leaf 0, Agg.leaf 1, Agg.leaf 2])
      = some (Agg.vec [Agg.leaf [1, 4], Agg.leaf [2, 5], Agg.leaf [3, 6]]) := rfl

/-- Witness of C1 at a pair of an integer and a floating-point field:
instance stride 8, members at offsets 0 and 4, two lanes, destination
block at 16. -/
theorem load_store_roundtrip_linear_witness :
    ((load_linear 8 2 (fun a => (a : Int)) (Agg.pair (Agg.leaf 0) (Agg.leaf 4))).bind
        (fun v => store_linear 8 2 (Agg.pair (Agg.leaf 16) (Agg.leaf 20)) v (fun a => (a : Int)))).map
      (fun m2 => m2 ((leaves (Agg.pair (Agg.leaf (16 : Nat)) (Agg.leaf 20))).getD 0 0 + 1 * 8))
      = some ((fun a => (a : Int)) ((leaves (Agg.pair (Agg.leaf (0 : Nat)) (Agg.leaf 4))).getD 0 0 + 1 * 8)) :=
  load_store_roundtrip_linear 8 2 (fun a => (a : Int))
    (Agg.pair (Agg.leaf 0) (Agg.leaf 4)) (Agg.pair (Agg.leaf 16) (Agg.leaf 20)) 0 1
    rfl rfl (by decide) (by decide) (by decide)

/-- Witness of C2: a pair of two lane containers visited against a scalar
pair with a recording operation. -/
theorem simd_members_once_per_leaf_pair_witness :
    (simd_members
        (fun (st : List (List Int × Int)) (d : List Int) (s : Int) => (st ++ [(d, s)], d)) []
        (Agg.pair (Agg.leaf [0, 0]) (Agg.leaf [0, 0]))
        (Agg.pair (Agg.leaf 5) (Agg.leaf 7))).map
      (fun r => (r.1, leaves r.2))
      = some (leafFold
          (fun (st : List (List Int × Int)) (d : List Int) (s : Int) => (st ++ [(d, s)], d)) []
          ((leaves (Agg.pair (Agg.leaf ([0, 0] : List Int)) (Agg.leaf [0, 0]))).zip
            (leaves (Agg.pair (Agg.leaf (5 : Int)) (Agg.leaf 7))))) :=
  simd_members_once_per_leaf_pair
    (fun (st : List (List Int × Int)) (d : List Int) (s : Int) => (st ++ [(d, s)], d)) []
    (Agg.pair (Agg.leaf [0, 0]) (Agg.leaf [0, 0]))
    (Agg.pair (Agg.leaf 5) (Agg.leaf 7)) rfl

/-- Witness of C3 at a pair composite, two lanes, mask [true, false],
leaf 1, lane 0. -/
theorem where_assignment_lane_select_witness :
    ((simd_where [true, false]
        (Agg.pair (Agg.leaf [1, 2]) (Agg.leaf [3, 4]))).assign
        (Agg.pair (Agg.leaf [10, 20]) (Agg.leaf [30, 40]))).map
      (fun d2 => ((leaves d2).getD 1 []).getD 0 0)
      = some (if ([true, false] : List Bool).getD 0 false
              then ((leaves (Agg.pair (Agg.leaf ([10, 20] : List Int)) (Agg.leaf [30, 40]))).getD 1 []).getD 0 0
              else ((leaves (Agg.pair (Agg.leaf ([1, 2] : List Int)) (Agg.leaf [3, 4]))).getD 1 []).getD 0 0) :=
  where_assignment_lane_select [true, false]
    (Agg.pair (Agg.leaf [1, 2]) (Agg.leaf [3, 4]))
    (Agg.pair (Agg.leaf [10, 20]) (Agg.leaf [30, 40])) 2 1 0
    rfl (by decide) (by decide) (by decide) (by decide) (by decide)

/-- Witness of C5 at a single arithmetic leaf with index list [3, 1]. -/
theorem indexed_access_same_indices_every_leaf_witness :
    ((load_indexed 1 2 (fun a => (a : Int)) [3, 1] (Agg.leaf 5)).map leaves
        = some ((leaves (Agg.leaf (5 : Nat))).map
            (fun a => (List.range ([3, 1] : List Nat).length).map
              (fun i => (fun a => (a : Int)) (a + get_index [3, 1] i * 1)))))
    ∧ (store_indexed 1 2 [3, 1] (Agg.leaf 7) (Agg.leaf [8, 9]) (fun a => (a : Int))
        = some (applyWrites
            (((leaves (Agg.leaf (7 : Nat))).zip (leaves (Agg.leaf ([8, 9] : List Int)))).flatMap
              (fun q => (List.range ([3, 1] : List Nat).length).map
                (fun i => (q.1 + get_index [3, 1] i * 1, q.2.getD i 0))))
            (fun a => (a : Int)))) :=
  indexed_access_same_indices_every_leaf 1 2 (fun a => (a : Int)) [3, 1]
    (Agg.leaf 5) (Agg.leaf 7) (Agg.leaf [8, 9]) rfl rfl

/-- Witness of C6 at a 3-element sequence of int32 with two lanes. -/
theorem simdized_vector_runtime_length_witness :
    simdized_value 2 (Agg.vec [Agg.leaf (1 : Int), Agg.leaf 2, Agg.leaf 3])
      = Agg.vec (List.replicate
          ([Agg.leaf (1 : Int), Agg.leaf 2, Agg.leaf 3] : List (Agg Int)).length
          (defaultMirror 2 Ty.scalar)) :=
  simdized_vector_runtime_length 2 [Agg.leaf (1 : Int), Agg.leaf 2, Agg.leaf 3]
    Ty.scalar rfl

/-- Witness of C7: a concrete pair and a vector whose source is one
element longer than the destination. -/
theorem visitor_order_fixed_witness :
    (visit_log (Agg.pair (Agg.leaf ([5] : List Int)) (Agg.leaf [6]))
        (Agg.pair (Agg.leaf (1 : Int)) (Agg.leaf 2))
        = do
            let l1 ← visit_log (Agg.leaf ([5] : List Int)) (Agg.leaf (1 : Int))
            let l2 ← visit_log (Agg.leaf ([6] : List Int)) (Agg.leaf (2 : Int))
            pure (l1 ++ l2))
    ∧ (visit_log (Agg.vec [Agg.leaf ([7] : List Int)])
        (Agg.vec [Agg.leaf (3 : Int), Agg.leaf 4])
        = do
            let logs ← (([Agg.leaf ([7] : List Int)] : List (Agg (List Int))).zip
                ([Agg.leaf (3 : Int), Agg.leaf 4] : List (Agg Int))).mapM
              (fun q => visit_log q.1 q.2)
            pure logs.flatten) :=
  visitor_order_fixed (Agg.leaf [5]) (Agg.leaf [6]) (Agg.leaf 1) (Agg.leaf 2)
    [Agg.leaf [7]] [Agg.leaf 3, Agg.leaf 4] (by decide)

/-- Witness of C8 at a single arithmetic leaf, two lanes, the swap
permutation [1, 0]. -/
theorem gather_permutation_is_reordering_witness :
    ((load_indexed 1 2 (fun a => (a : Int)) [1, 0] (Agg.leaf 0)).bind
        (fun v => store_linear 1 2 (Agg.leaf 10) v (fun a => (a : Int)))).map
      (fun m2 => m2 ((leaves (Agg.leaf (10 : Nat))).getD 0 0 + 0 * 1))
      = (load_linear 1 2 (fun a => (a : Int)) (Agg.leaf 0)).map
          (fun v => ((leaves v).getD 0 []).getD (get_index [1, 0] 0) 0) :=
  gather_permutation_is_reordering 1 2 (fun a => (a : Int)) [1, 0]
    (Agg.leaf 0) (Agg.leaf 10) 0 0
    rfl rfl (by decide) (by decide) (by decide) (by decide)

/-- Witness of C4 (amended) at a pair of two arithmetic fields with the
identity subobject functor, lanes [1, 0], leaf 0, lane 1. -/
theorem load_rvalue_copies_leaves_per_lane_witness :
    ((load_rvalue_subobject (Ty.pair Ty.scalar Ty.scalar)
        (fun k => Agg.pair (Agg.leaf (k : Int)) (Agg.leaf ((k : Int) + 10))) [1, 0]
        (fun e => e)).map
        (fun r => ((leaves r).getD 0 []).getD 1 0)
      = some ((leaves ((fun (e : Agg Int) => e)
          ((fun (k : Nat) => Agg.pair (Agg.leaf (k : Int)) (Agg.leaf ((k : Int) + 10)))
            (get_index [1, 0] 1)))).getD 0 0))
    ∧ ((load_rvalue (Ty.pair Ty.scalar Ty.scalar)
        (fun k => Agg.pair (Agg.leaf (k : Int)) (Agg.leaf ((k : Int) + 10))) [1, 0]).map
        (fun r => ((leaves r).getD 0 []).getD 1 0)
      = some ((leaves ((fun (k : Nat) => Agg.pair (Agg.leaf (k : Int)) (Agg.leaf ((k : Int) + 10)))
            (get_index [1, 0] 1))).getD 0 0)) :=
  load_rvalue_copies_leaves_per_lane (Ty.pair Ty.scalar Ty.scalar)
    (fun k => Agg.pair (Agg.leaf (k : Int)) (Agg.leaf ((k : Int) + 10))) [1, 0]
    (fun e => e) 0 1
    rfl (fun _ => rfl) (fun _ => rfl) (by decide) (by decide)

end simd_access
